import Mathlib

/-!
Verification of the epoch settlement engine of `src/server/index.js`.

The engine is a single-threaded JavaScript event loop mutating module-level
state.  We embed it shallowly: each external event (an accepted upstream price
message, a firing of the 50 ms rollover timer) is an atomic step
`EngineState → EngineState × List Msg` taking the wall-clock time `now`
(`Date.now()`, in milliseconds, modelled as `ℕ`) as a parameter; `Date.now()`
is read several times inside one synchronous callback in the source, and the
embedding treats all reads within one callback as returning the same `now`.

JavaScript numbers are modelled by `JSNum`: either a finite rational, `NaN`,
or one of the two infinities.  The JS comparison `>` (including the coercion
of `null` to `+0` when a possibly-null variable is compared) is modelled
explicitly, since the tick-acceptance guard `!isNaN(price) && price > 0`
and the outcome rule `epochEndPrice > lastEpochEndPrice` both use it.
-/

/-- A JavaScript number: `NaN`, `Infinity`, `-Infinity`, or a finite value
(modelled as a rational; every finite IEEE double is rational). -/
inductive JSNum where
  | nan
  | inf
  | negInf
  | fin (q : ℚ)
deriving DecidableEq, Repr

namespace JSNum

/-- JS `isNaN` on a number. -/
def isNaN : JSNum → Bool
  | .nan => true
  | _ => false

end JSNum

/-- JS `a > b` on two numbers: any comparison with `NaN` is `false`;
`Infinity` is above everything but itself and `NaN`; `-Infinity` is below
everything but itself and `NaN`. -/
def jsGtNum : JSNum → JSNum → Bool
  | .nan, _ => false
  | _, .nan => false
  | .inf, .inf => false
  | .inf, _ => true
  | _, .inf => false
  | .negInf, _ => false
  | .fin _, .negInf => true
  | .fin a, .fin b => decide (a > b)

/-- JS `ToNumber` of a possibly-`null` number variable: `null` coerces to `+0`.
Used where the source compares variables that may hold `null`. -/
def toNum : Option JSNum → JSNum
  | none => .fin 0
  | some v => v

/-- JS `a > b` where either operand may be `null` (as in
`epochEndPrice > lastEpochEndPrice` in `processEpochEnd`). -/
def jsGt (a b : Option JSNum) : Bool := jsGtNum (toNum a) (toNum b)

/-- JS truthiness of a possibly-`null` number variable, as used by the
short-circuit `lastTickPriceInEpoch || currentPrice`:
`null`, `NaN` and `0` are falsy, every other number is truthy. -/
def jsTruthy : Option JSNum → Bool
  | none => false
  | some .nan => false
  | some (.fin q) => decide (q ≠ 0)
  | some _ => true

/-- The tick-acceptance guard of the Pyth message handler (line 219 of
`src/server/index.js`): `!isNaN(price) && price > 0`. -/
def validPrice (v : JSNum) : Bool := !v.isNaN && jsGtNum v (.fin 0)

/-- `EPOCH_DURATION = 10000` ms (10 seconds). -/
def EPOCH_DURATION : ℕ := 10000

/-- `MAX_EPOCH_HISTORY = 20`. -/
def MAX_EPOCH_HISTORY : ℕ := 20

/-- `MAX_PRICE_HISTORY = 600`. -/
def MAX_PRICE_HISTORY : ℕ := 600

/-- `getEpochNumber()`: `Math.floor(Date.now() / EPOCH_DURATION)`, with the
wall clock passed explicitly. -/
def getEpochNumber (now : ℕ) : ℕ := now / EPOCH_DURATION

/-- `getTimeRemaining()`: `EPOCH_DURATION - (Date.now() % EPOCH_DURATION)`. -/
def getTimeRemaining (now : ℕ) : ℕ := EPOCH_DURATION - now % EPOCH_DURATION

/-- Settlement outcome: `'up'` or `'down'` (the JS value `null` is modelled
by `Option Outcome`). -/
inductive Outcome where
  | up
  | down
deriving DecidableEq, Repr

/-- The `epochResult` object built in `processEpochEnd`. -/
structure EpochResult where
  epoch : ℕ
  startPrice : Option JSNum
  endPrice : Option JSNum
  outcome : Option Outcome
  timestamp : ℕ
deriving DecidableEq, Repr

/-- A `pricePoint` pushed to `priceHistory` by the tick handler.
`isEpochEnd` and `epochResult` are absent (`false`/`null`) at creation and
set on the last point of an epoch by `processEpochEnd`. -/
structure PricePoint where
  price : JSNum
  timestamp : ℕ
  epoch : ℕ
  isEpochEnd : Bool := false
  epochResult : Option EpochResult := none
deriving DecidableEq, Repr

/-- The payload of the `epoch_end` broadcast (the `epochTimestamps` field,
the output of `getEpochTimestamps()`, is chart decoration used by no claim
and is omitted). -/
structure EpochEndMsg where
  epoch : ℕ
  endPrice : Option JSNum
  referencePrice : Option JSNum
  referenceIndex : ℤ
  outcome : Option Outcome
  timestamp : ℕ
deriving DecidableEq, Repr

/-- Broadcasts emitted by the engine (`init` snapshots and `heartbeat`
messages touch no engine state and are used by no claim, so they are not
modelled; `epochTimestamps` fields are likewise omitted). -/
inductive Msg where
  | price (price : JSNum) (timestamp : ℕ) (epoch : ℕ) (timeRemaining : ℕ)
  | epochEnd (m : EpochEndMsg)
  | epochStart (epoch : ℕ) (referencePrice : Option JSNum) (timeRemaining : ℕ) (timestamp : ℕ)
  | time (epoch : ℕ) (timeRemaining : ℕ)
deriving DecidableEq, Repr

/-- The module-level mutable state of `src/server/index.js` that the
settlement engine reads and writes. -/
structure EngineState where
  currentPrice : Option JSNum
  lastPriceTimestamp : Option ℕ
  lastTickPriceInEpoch : Option JSNum
  currentEpoch : ℕ
  epochStartPrice : Option JSNum
  lastEpochEndPrice : Option JSNum
  epochHistory : List EpochResult
  priceHistory : List PricePoint
deriving DecidableEq, Repr

/-- The initial state: all price variables `null`, empty histories, and
`currentEpoch = Math.floor(Date.now() / EPOCH_DURATION)` at process start. -/
def initState (t0 : ℕ) : EngineState :=
  { currentPrice := none
    lastPriceTimestamp := none
    lastTickPriceInEpoch := none
    currentEpoch := getEpochNumber t0
    epochStartPrice := none
    lastEpochEndPrice := none
    epochHistory := []
    priceHistory := [] }

/-- The `push` followed by shift-if-over-capacity pattern used by the source
for both bounded histories (`priceHistory` and `epochHistory`). -/
def pushBounded {α : Type} (cap : ℕ) (l : List α) (a : α) : List α :=
  let l2 := l ++ [a]
  if cap < l2.length then l2.tail else l2

/-- The body of the Pyth `message` handler after price normalisation
(lines 219–251): if `!isNaN(price) && price > 0`, update `currentPrice`,
`lastPriceTimestamp` and `lastTickPriceInEpoch`, set `epochStartPrice` if it
is `null`, append a `pricePoint` tagged with the engine's `currentEpoch`
(evicting the oldest beyond `MAX_PRICE_HISTORY`), and broadcast a `price`
message; otherwise do nothing. -/
def onTick (price : JSNum) (now : ℕ) (s : EngineState) : EngineState × List Msg :=
  if validPrice price then
    ({ s with
        currentPrice := some price
        lastPriceTimestamp := some now
        lastTickPriceInEpoch := some price
        epochStartPrice := if s.epochStartPrice = none then some price else s.epochStartPrice
        priceHistory := pushBounded MAX_PRICE_HISTORY s.priceHistory
          { price := price, timestamp := now, epoch := s.currentEpoch } },
     [.price price now s.currentEpoch (getTimeRemaining now)])
  else (s, [])

/-- Lines 127–130: mark the last point of `priceHistory` (if any) with
`isEpochEnd = true` and the epoch result. -/
def markLast (hist : List PricePoint) (r : EpochResult) : List PricePoint :=
  match hist.getLast? with
  | none => hist
  | some p => hist.dropLast ++ [{ p with isEpochEnd := true, epochResult := some r }]

/-- Lines 132–139: the downward `for` loop returning the greatest index `i`
with `priceHistory[i].epoch < endedEpoch`, or `-1` if there is none.  The
source scans from the top and returns at the first hit; this recursion over
the front computes the same greatest matching index. -/
def findReferenceIndex (hist : List PricePoint) (endedEpoch : ℕ) : ℤ :=
  match hist with
  | [] => -1
  | p :: rest =>
    let r := findReferenceIndex rest endedEpoch
    if 0 ≤ r then r + 1
    else if p.epoch < endedEpoch then 0
    else -1

/-- Line 101: `const epochEndPrice = lastTickPriceInEpoch || currentPrice`
(JS short-circuit `||` on possibly-null numbers). -/
def settlePrice (s : EngineState) : Option JSNum :=
  if jsTruthy s.lastTickPriceInEpoch then s.lastTickPriceInEpoch else s.currentPrice

/-- Lines 104–107: the outcome against the previous epoch's settlement
price; `null` when there is no reference price yet. -/
def settleOutcome (s : EngineState) : Option Outcome :=
  if s.lastEpochEndPrice ≠ none then
    some (if jsGt (settlePrice s) s.lastEpochEndPrice then .up else .down)
  else none

/-- Lines 112–118: the `epochResult` object. -/
def settleResult (now : ℕ) (s : EngineState) : EpochResult :=
  { epoch := s.currentEpoch
    startPrice := s.epochStartPrice
    endPrice := settlePrice s
    outcome := settleOutcome s
    timestamp := now }

/-- Lines 142–151: the payload of the `epoch_end` broadcast, including the
`referenceIndex` computed (lines 132–139) over the already-marked history. -/
def settleMsg (now : ℕ) (s : EngineState) : EpochEndMsg :=
  { epoch := s.currentEpoch
    endPrice := settlePrice s
    referencePrice := s.lastEpochEndPrice
    referenceIndex := findReferenceIndex (markLast s.priceHistory (settleResult now s)) s.currentEpoch
    outcome := settleOutcome s
    timestamp := now }

/-- Lines 120–130 and 153–157: push the result to the bounded
`epochHistory`, mark the settlement point in `priceHistory`, chain the
reference price, advance `currentEpoch` to `getEpochNumber()`, carry
`epochStartPrice` forward from `currentPrice`, reset `lastTickPriceInEpoch`. -/
def settleState (now : ℕ) (s : EngineState) : EngineState :=
  { s with
      epochHistory := pushBounded MAX_EPOCH_HISTORY s.epochHistory (settleResult now s)
      priceHistory := markLast s.priceHistory (settleResult now s)
      lastEpochEndPrice := settlePrice s
      currentEpoch := getEpochNumber now
      epochStartPrice := s.currentPrice
      lastTickPriceInEpoch := none }

/-- `processEpochEnd()` (lines 96–168): return immediately if no price was
ever observed (both `lastTickPriceInEpoch` and `currentPrice` are `null`);
otherwise settle, broadcasting `epoch_end` and then `epoch_start` (whose
fields read the already-updated state, lines 160–167). -/
def processEpochEnd (now : ℕ) (s : EngineState) : EngineState × List Msg :=
  if s.lastTickPriceInEpoch = none ∧ s.currentPrice = none then (s, []) else
  (settleState now s,
   [.epochEnd (settleMsg now s),
    .epochStart (getEpochNumber now) (settlePrice s) (getTimeRemaining now) now])

/-- The body of the 50 ms `setInterval` callback (lines 171–186): settle if
`getEpochNumber() > currentEpoch`, then broadcast a `time` message when
`Date.now() % 100 < 20`. -/
def checkRollover (now : ℕ) (s : EngineState) : EngineState × List Msg :=
  let r := if s.currentEpoch < getEpochNumber now then processEpochEnd now s else (s, [])
  (r.1, r.2 ++ (if now % 100 < 20 then [.time r.1.currentEpoch (getTimeRemaining now)] else []))

/-- External events driving the engine: an upstream price tick, or a firing
of the rollover timer. -/
inductive Event where
  | tick (price : JSNum)
  | timer
deriving DecidableEq, Repr

/-- One atomic event at wall-clock time `now`. -/
def step : ℕ × Event → EngineState → EngineState × List Msg
  | (now, .tick p), s => onTick p now s
  | (now, .timer), s => checkRollover now s

/-- Run a list of timestamped events from a state, accumulating broadcasts. -/
def runFrom (s : EngineState) (out : List Msg) : List (ℕ × Event) → EngineState × List Msg
  | [] => (s, out)
  | e :: evs => runFrom (step e s).1 (out ++ (step e s).2) evs

/-- Run an execution from process start at `t0`. -/
def run (t0 : ℕ) (evs : List (ℕ × Event)) : EngineState × List Msg :=
  runFrom (initState t0) [] evs

/-- Event timestamps are nondecreasing and bounded below by `t`
(`Date.now()` is monotone within one process). -/
def timesOk (t : ℕ) : List (ℕ × Event) → Bool
  | [] => true
  | e :: evs => decide (t ≤ e.1) && timesOk e.1 evs

/-- Project the `epoch_end` broadcasts out of an output trace: these are the
observable settlements (one per `EpochResult` ever produced). -/
def epochEndsOf (out : List Msg) : List EpochEndMsg :=
  out.filterMap fun m => match m with
    | .epochEnd e => some e
    | _ => none

/-! ## Basic facts about the embedded operations -/

/-- A possibly-`null` price variable holding either `null` or a price that
passed the acceptance guard. -/
def optValid : Option JSNum → Bool
  | none => true
  | some v => validPrice v

theorem valid_truthy {v : JSNum} (h : validPrice v = true) : jsTruthy (some v) = true := by
  cases v with
  | nan => simp [validPrice, JSNum.isNaN] at h
  | inf => rfl
  | negInf => simp [validPrice, jsGtNum, JSNum.isNaN] at h
  | fin q =>
    simp [validPrice, jsGtNum, JSNum.isNaN] at h
    simp [jsTruthy]
    exact h.ne'

theorem getEpochNumber_mono {a b : ℕ} (h : a ≤ b) : getEpochNumber a ≤ getEpochNumber b :=
  Nat.div_le_div_right h

theorem epochEndsOf_append (a b : List Msg) :
    epochEndsOf (a ++ b) = epochEndsOf a ++ epochEndsOf b :=
  List.filterMap_append a b _

theorem epochEndsOf_time (e tr : ℕ) : epochEndsOf [Msg.time e tr] = [] := rfl

theorem epochEndsOf_ite_time (c : Prop) [Decidable c] (e tr : ℕ) :
    epochEndsOf (if c then [Msg.time e tr] else []) = [] := by
  by_cases h : c <;> simp [h, epochEndsOf]

/-- Membership in the marked history comes from the original history, with
`epoch` and `timestamp` (and `price`) unchanged. -/
theorem markLast_mem {hist : List PricePoint} {r : EpochResult} {p : PricePoint}
    (h : p ∈ markLast hist r) :
    ∃ q ∈ hist, p.epoch = q.epoch ∧ p.timestamp = q.timestamp ∧ p.price = q.price := by
  unfold markLast at h
  cases hl : hist.getLast? with
  | none => rw [hl] at h; exact ⟨p, h, rfl, rfl, rfl⟩
  | some q =>
    rw [hl] at h
    rcases List.mem_append.1 h with h1 | h2
    · exact ⟨p, (List.dropLast_sublist hist).subset h1, rfl, rfl, rfl⟩
    · have hp : p = { q with isEpochEnd := true, epochResult := some r } := by
        simpa using h2
      exact ⟨q, List.mem_of_getLast?_eq_some hl, by rw [hp], by rw [hp], by rw [hp]⟩

/-- Membership in a tail-truncated push comes from the original list or is
the pushed element. -/
theorem pushBounded_mem {α : Type} {cap : ℕ} {l : List α} {a x : α}
    (h : x ∈ pushBounded cap l a) : x ∈ l ∨ x = a := by
  unfold pushBounded at h
  by_cases hc : cap < (l ++ [a]).length
  · rw [if_pos hc] at h
    have := (List.tail_sublist (l ++ [a])).subset h
    rcases List.mem_append.1 this with h1 | h2
    · exact Or.inl h1
    · exact Or.inr (by simpa using h2)
  · rw [if_neg hc] at h
    rcases List.mem_append.1 h with h1 | h2
    · exact Or.inl h1
    · exact Or.inr (by simpa using h2)

/-- The pushed element is always the last element of a bounded push
(for a positive capacity, as both capacities of the source are). -/
theorem pushBounded_getLast {α : Type} {cap : ℕ} (hcap : 0 < cap) (l : List α) (a : α) :
    (pushBounded cap l a).getLast? = some a := by
  unfold pushBounded
  by_cases hc : cap < (l ++ [a]).length
  · rw [if_pos hc]
    cases l with
    | nil => simp at hc; omega
    | cons b l' => simp
  · rw [if_neg hc]
    exact List.getLast?_concat l

/-- The settlement price exists and is a guard-passing price whenever some
price was ever observed; it is the last in-epoch tick when one exists, and
`currentPrice` otherwise. -/
theorem settlePrice_spec {s : EngineState}
    (hcp : optValid s.currentPrice = true) (hlt : optValid s.lastTickPriceInEpoch = true)
    (hnull : ¬(s.lastTickPriceInEpoch = none ∧ s.currentPrice = none)) :
    (∀ v, s.lastTickPriceInEpoch = some v → settlePrice s = some v)
    ∧ (s.lastTickPriceInEpoch = none → settlePrice s = s.currentPrice)
    ∧ ∃ v, settlePrice s = some v ∧ validPrice v = true := by
  cases hl : s.lastTickPriceInEpoch with
  | some v =>
    have hv : validPrice v = true := by rw [hl] at hlt; exact hlt
    have ht : jsTruthy (some v) = true := valid_truthy hv
    have hsp : settlePrice s = some v := by simp [settlePrice, hl, ht]
    refine ⟨?_, ?_, v, hsp, hv⟩
    · intro w hw
      exact hsp.trans hw
    · intro hn
      cases hn
  | none =>
    have hsp : settlePrice s = s.currentPrice := by simp [settlePrice, hl, jsTruthy]
    cases hc : s.currentPrice with
    | none => exact absurd ⟨hl, hc⟩ hnull
    | some w =>
      have hw : validPrice w = true := by rw [hc] at hcp; exact hcp
      refine ⟨?_, fun _ => hsp.trans hc, w, hsp.trans hc, hw⟩
      intro u hu
      cases hu

/-! ## The reachability invariant -/

/-- Invariant of every reachable configuration: `t` is an upper bound on the
times already seen (the last event time), `s` the engine state, `out` the
full broadcast log.  It ties the mutable state to the sequence of
`epoch_end` broadcasts — the observable settlements. -/
structure EngineInv (t : ℕ) (s : EngineState) (out : List Msg) : Prop where
  cpValid : optValid s.currentPrice = true
  ltValid : optValid s.lastTickPriceInEpoch = true
  refValid : optValid s.lastEpochEndPrice = true
  epochLe : s.currentEpoch ≤ getEpochNumber t
  histLe : ∀ p ∈ s.priceHistory, p.epoch ≤ getEpochNumber p.timestamp
  endsLt : ∀ m ∈ epochEndsOf out, m.epoch < s.currentEpoch
  endsPW : List.Pairwise (fun a b => a.epoch < b.epoch) (epochEndsOf out)
  refNone : s.lastEpochEndPrice = none ↔ epochEndsOf out = []
  refLast : ∀ m, (epochEndsOf out).getLast? = some m → s.lastEpochEndPrice = m.endPrice
  endsValid : ∀ m ∈ epochEndsOf out, ∃ v, m.endPrice = some v ∧ validPrice v = true
  outcomeEq : ∀ m ∈ epochEndsOf out,
    m.outcome = (if m.referencePrice = none then none
                 else some (if jsGt m.endPrice m.referencePrice then Outcome.up else Outcome.down))
  refChain : List.Chain' (fun a b => b.referencePrice = a.endPrice) (epochEndsOf out)
  headRef : ∀ m, (epochEndsOf out).head? = some m → m.referencePrice = none

theorem EngineInv.mono {t t' : ℕ} {s : EngineState} {out : List Msg}
    (h : EngineInv t s out) (hle : t ≤ t') : EngineInv t' s out :=
  { h with epochLe := h.epochLe.trans (getEpochNumber_mono hle) }

/-- Appending broadcasts that contain no `epoch_end` preserves the invariant. -/
theorem EngineInv.extend {t : ℕ} {s : EngineState} {out ms : List Msg}
    (h : EngineInv t s out) (hms : epochEndsOf ms = []) : EngineInv t s (out ++ ms) := by
  have he : epochEndsOf (out ++ ms) = epochEndsOf out := by
    rw [epochEndsOf_append, hms, List.append_nil]
  exact { h with
    endsLt := by rw [he]; exact h.endsLt
    endsPW := by rw [he]; exact h.endsPW
    refNone := by rw [he]; exact h.refNone
    refLast := by rw [he]; exact h.refLast
    endsValid := by rw [he]; exact h.endsValid
    outcomeEq := by rw [he]; exact h.outcomeEq
    refChain := by rw [he]; exact h.refChain
    headRef := by rw [he]; exact h.headRef }

theorem initState_inv (t0 : ℕ) : EngineInv t0 (initState t0) [] := by
  constructor <;> simp [initState, epochEndsOf, optValid]

/-- `onTick` preserves the invariant. -/
theorem onTick_inv {t now : ℕ} {p : JSNum} {s : EngineState} {out : List Msg}
    (h : EngineInv t s out) (hle : t ≤ now) :
    EngineInv now (onTick p now s).1 (out ++ (onTick p now s).2) := by
  by_cases hv : validPrice p = true
  · have hstep :
        onTick p now s =
          ({ s with
              currentPrice := some p
              lastPriceTimestamp := some now
              lastTickPriceInEpoch := some p
              epochStartPrice := if s.epochStartPrice = none then some p else s.epochStartPrice
              priceHistory := pushBounded MAX_PRICE_HISTORY s.priceHistory
                { price := p, timestamp := now, epoch := s.currentEpoch } },
           [.price p now s.currentEpoch (getTimeRemaining now)]) := by
      simp [onTick, hv]
    rw [hstep]
    have he : epochEndsOf (out ++ [Msg.price p now s.currentEpoch (getTimeRemaining now)])
        = epochEndsOf out := by
      rw [epochEndsOf_append]
      simp [epochEndsOf]
    refine
      { cpValid := hv
        ltValid := hv
        refValid := h.refValid
        epochLe := h.epochLe.trans (getEpochNumber_mono hle)
        histLe := ?_
        endsLt := by rw [he]; exact h.endsLt
        endsPW := by rw [he]; exact h.endsPW
        refNone := by rw [he]; exact h.refNone
        refLast := by rw [he]; exact h.refLast
        endsValid := by rw [he]; exact h.endsValid
        outcomeEq := by rw [he]; exact h.outcomeEq
        refChain := by rw [he]; exact h.refChain
        headRef := by rw [he]; exact h.headRef }
    intro q hq
    rcases pushBounded_mem hq with hmem | hnew
    · exact h.histLe q hmem
    · rw [hnew]
      exact (h.epochLe.trans (getEpochNumber_mono hle))
  · have hstep : onTick p now s = (s, []) := by
      simp [onTick, hv]
    rw [hstep]
    simpa using (h.mono hle)

/-- `processEpochEnd` preserves the invariant when called under the rollover
guard `getEpochNumber(now) > currentEpoch`. -/
theorem processEpochEnd_inv {t now : ℕ} {s : EngineState} {out : List Msg}
    (h : EngineInv t s out) (hle : t ≤ now)
    (hguard : s.currentEpoch < getEpochNumber now) :
    EngineInv now (processEpochEnd now s).1 (out ++ (processEpochEnd now s).2) := by
  by_cases hnull : s.lastTickPriceInEpoch = none ∧ s.currentPrice = none
  · have hstep : processEpochEnd now s = (s, []) := by
      simp [processEpochEnd, hnull]
    rw [hstep]
    simpa using (h.mono hle)
  · have hstep : processEpochEnd now s =
        (settleState now s,
         [.epochEnd (settleMsg now s),
          .epochStart (getEpochNumber now) (settlePrice s) (getTimeRemaining now) now]) := by
      simp [processEpochEnd, hnull]
    obtain ⟨hsome, hnone, v, hveq, hvval⟩ := settlePrice_spec h.cpValid h.ltValid hnull
    rw [hstep]
    have he : epochEndsOf (out ++
        [Msg.epochEnd (settleMsg now s),
         Msg.epochStart (getEpochNumber now) (settlePrice s) (getTimeRemaining now) now])
        = epochEndsOf out ++ [settleMsg now s] := by
      rw [epochEndsOf_append]
      simp [epochEndsOf]
    refine
      { cpValid := h.cpValid
        ltValid := rfl
        refValid := ?_
        epochLe := le_refl _
        histLe := ?_
        endsLt := ?_
        endsPW := ?_
        refNone := ?_
        refLast := ?_
        endsValid := ?_
        outcomeEq := ?_
        refChain := ?_
        headRef := ?_ }
    · show optValid (settlePrice s) = true
      rw [hveq]
      exact hvval
    · intro p hp
      rcases markLast_mem hp with ⟨q, hq, he1, he2, _⟩
      rw [he1, he2]
      exact h.histLe q hq
    · rw [he]
      intro m hm
      rcases List.mem_append.1 hm with h1 | h2
      · exact lt_trans (h.endsLt m h1) hguard
      · have : m = settleMsg now s := by simpa using h2
        rw [this]
        exact hguard
    · rw [he]
      refine List.pairwise_append.2 ⟨h.endsPW, List.pairwise_singleton _ _, ?_⟩
      intro a ha b hb
      have : b = settleMsg now s := by simpa using hb
      rw [this]
      exact h.endsLt a ha
    · rw [he]
      show settlePrice s = none ↔ _
      rw [hveq]
      simp
    · rw [he]
      intro m hm
      rw [List.getLast?_concat] at hm
      have : m = settleMsg now s := by injection hm with h'; exact h'.symm
      rw [this]
      rfl
    · rw [he]
      intro m hm
      rcases List.mem_append.1 hm with h1 | h2
      · exact h.endsValid m h1
      · have : m = settleMsg now s := by simpa using h2
        rw [this]
        exact ⟨v, hveq, hvval⟩
    · rw [he]
      intro m hm
      rcases List.mem_append.1 hm with h1 | h2
      · exact h.outcomeEq m h1
      · have hm' : m = settleMsg now s := by simpa using h2
        rw [hm']
        by_cases hr : s.lastEpochEndPrice = none
        · simp [settleMsg, settleOutcome, hr]
        · simp [settleMsg, settleOutcome, hr]
    · rw [he]
      refine List.Chain'.append h.refChain (List.chain'_singleton _) ?_
      intro x hx y hy
      have hy' : settleMsg now s = y := by simpa using hy
      rw [← hy']
      show s.lastEpochEndPrice = x.endPrice
      exact h.refLast x (Option.mem_def.1 hx)
    · rw [he]
      intro m hm
      cases hE : epochEndsOf out with
      | nil =>
        rw [hE] at hm
        simp at hm
        rw [← hm]
        show s.lastEpochEndPrice = none
        exact h.refNone.2 hE
      | cons a l =>
        rw [hE] at hm
        simp at hm
        rw [← hm]
        exact h.headRef a (by rw [hE]; rfl)

/-- The timer callback preserves the invariant. -/
theorem checkRollover_inv {t now : ℕ} {s : EngineState} {out : List Msg}
    (h : EngineInv t s out) (hle : t ≤ now) :
    EngineInv now (checkRollover now s).1 (out ++ (checkRollover now s).2) := by
  unfold checkRollover
  by_cases hg : s.currentEpoch < getEpochNumber now
  · rw [if_pos hg]
    have h1 := processEpochEnd_inv h hle hg
    have h2 := h1.extend (epochEndsOf_ite_time (now % 100 < 20)
      (processEpochEnd now s).1.currentEpoch (getTimeRemaining now))
    simpa [List.append_assoc] using h2
  · rw [if_neg hg]
    have h2 := (h.mono hle).extend (epochEndsOf_ite_time (now % 100 < 20)
      s.currentEpoch (getTimeRemaining now))
    simpa using h2

/-- Any single event preserves the invariant. -/
theorem step_inv {t now : ℕ} {e : Event} {s : EngineState} {out : List Msg}
    (h : EngineInv t s out) (hle : t ≤ now) :
    EngineInv now (step (now, e) s).1 (out ++ (step (now, e) s).2) := by
  cases e with
  | tick p => exact onTick_inv h hle
  | timer => exact checkRollover_inv h hle

/-- Running any time-monotone event list preserves the invariant. -/
theorem runFrom_inv {t : ℕ} {s : EngineState} {out : List Msg} {evs : List (ℕ × Event)}
    (h : EngineInv t s out) (hok : timesOk t evs = true) :
    ∃ t', EngineInv t' (runFrom s out evs).1 (runFrom s out evs).2 := by
  induction evs generalizing t s out with
  | nil => exact ⟨t, h⟩
  | cons e evs ih =>
    rw [timesOk, Bool.and_eq_true] at hok
    obtain ⟨h1, h2⟩ := hok
    have hle : t ≤ e.1 := of_decide_eq_true h1
    have : EngineInv e.1 (step e s).1 (out ++ (step e s).2) := by
      obtain ⟨tn, ev⟩ := e
      exact step_inv h hle
    exact ih this h2

/-- The invariant holds after any execution from process start. -/
theorem run_inv {t0 : ℕ} {evs : List (ℕ × Event)} (hok : timesOk t0 evs = true) :
    ∃ t', EngineInv t' (run t0 evs).1 (run t0 evs).2 :=
  runFrom_inv (initState_inv t0) hok

/-- One event never decreases `currentEpoch`: a tick leaves it unchanged and
a timer firing either leaves it unchanged or fast-forwards it. -/
theorem step_epoch_mono (now : ℕ) (e : Event) (s : EngineState) :
    s.currentEpoch ≤ (step (now, e) s).1.currentEpoch := by
  cases e with
  | tick p =>
    by_cases hv : validPrice p = true <;> simp [step, onTick, hv]
  | timer =>
    show s.currentEpoch ≤ (checkRollover now s).1.currentEpoch
    unfold checkRollover
    by_cases hg : s.currentEpoch < getEpochNumber now
    · rw [if_pos hg]
      by_cases hnull : s.lastTickPriceInEpoch = none ∧ s.currentPrice = none
      · simp [processEpochEnd, hnull]
      · have : processEpochEnd now s =
            (settleState now s,
             [.epochEnd (settleMsg now s),
              .epochStart (getEpochNumber now) (settlePrice s) (getTimeRemaining now) now]) := by
          simp [processEpochEnd, hnull]
        rw [this]
        exact le_of_lt hg
    · rw [if_neg hg]

/-- The engine states visited by an event list (one entry per event). -/
def runStates (s : EngineState) : List (ℕ × Event) → List EngineState
  | [] => []
  | e :: evs => (step e s).1 :: runStates (step e s).1 evs

/-- Along any time-monotone execution the observed `currentEpoch` values form
a nondecreasing chain. -/
theorem runStates_epoch_chain {t : ℕ} {s : EngineState} {out : List Msg}
    {evs : List (ℕ × Event)} (h : EngineInv t s out) (hok : timesOk t evs = true) :
    List.Chain (· ≤ ·) s.currentEpoch ((runStates s evs).map EngineState.currentEpoch) := by
  induction evs generalizing t s out with
  | nil => exact List.Chain.nil
  | cons e evs ih =>
    rw [timesOk, Bool.and_eq_true] at hok
    obtain ⟨h1, h2⟩ := hok
    have hle : t ≤ e.1 := of_decide_eq_true h1
    obtain ⟨tn, ev⟩ := e
    refine List.Chain.cons (step_epoch_mono tn ev s) ?_
    exact ih (step_inv h hle) h2

/-- Extract the relation between two adjacent elements of a `Chain'` via
optional indexing. -/
theorem chain'_adjacent {α : Type} {R : α → α → Prop} {l : List α} (h : List.Chain' R l)
    {i : ℕ} {a b : α} (ha : l[i]? = some a) (hb : l[i + 1]? = some b) : R a b := by
  rcases List.getElem?_eq_some_iff.1 ha with ⟨hia, ha'⟩
  rcases List.getElem?_eq_some_iff.1 hb with ⟨hib, hb'⟩
  have hr := List.chain'_iff_get.1 h i (by omega)
  rw [List.get_eq_getElem, List.get_eq_getElem] at hr
  simp only at hr
  rw [ha', hb'] at hr
  exact hr

/-- Characterisation of `findReferenceIndex`: it is `-1` exactly when no
point of an epoch earlier than `e` exists, and otherwise it is the greatest
index of such a point (the source's downward scan stops at the first hit
from the top). -/
theorem findReferenceIndex_spec (hist : List PricePoint) (e : ℕ) :
    (findReferenceIndex hist e = -1 ∧ ∀ p ∈ hist, ¬ p.epoch < e)
    ∨ (∃ i : ℕ, findReferenceIndex hist e = (i : ℤ) ∧
        ∃ hi : i < hist.length, (hist.get ⟨i, hi⟩).epoch < e ∧
          ∀ j (hj : j < hist.length), i < j → ¬ (hist.get ⟨j, hj⟩).epoch < e) := by
  induction hist with
  | nil =>
    left
    exact ⟨rfl, by simp⟩
  | cons p rest ih =>
    rcases ih with ⟨hneg, hnone⟩ | ⟨i, hieq, hi, hmatch, hafter⟩
    · by_cases hp : p.epoch < e
      · right
        refine ⟨0, ?_, by simp, by simpa using hp, ?_⟩
        · simp only [findReferenceIndex]
          rw [hneg]
          norm_num [hp]
        · intro j hj hj0
          cases j with
          | zero => omega
          | succ j' =>
            have hj' : j' < rest.length := by simpa using hj
            have hmem : rest.get ⟨j', hj'⟩ ∈ rest := rest.get_mem j' hj'
            simpa using hnone _ hmem
      · left
        constructor
        · simp only [findReferenceIndex]
          rw [hneg]
          norm_num [hp]
        · intro q hq
          rcases List.mem_cons.1 hq with h1 | h2
          · rw [h1]; exact hp
          · exact hnone q h2
    · right
      refine ⟨i + 1, ?_, by simpa using Nat.succ_lt_succ hi, ?_, ?_⟩
      · simp only [findReferenceIndex]
        rw [hieq]
        norm_num
      · simpa using hmatch
      · intro j hj hij
        cases j with
        | zero => omega
        | succ j' =>
          have hj' : j' < rest.length := by simpa using hj
          have := hafter j' hj' (by omega)
          simpa using this

/-! ## Claims -/

/-- C9 (confirmed): the epoch clock is a pure function of wall-clock time:
`epochIndex(now) = floor(now / epochDuration)` and
`timeRemaining(now) = epochDuration - (now mod epochDuration)`; the current
epoch's window `[epochIndex(now)·D, (epochIndex(now)+1)·D)` brackets `now`,
the next boundary `now + timeRemaining(now)` is exactly the multiple
`(epochIndex(now)+1)·D` of the epoch duration since the Unix epoch, and every
multiple `k·D` starts epoch `k` — nothing depends on process start time, so
two instances reading the same clock compute the same boundaries. -/
theorem epochClock_pure : ∀ now : ℕ,
    getEpochNumber now = now / EPOCH_DURATION
    ∧ getTimeRemaining now = EPOCH_DURATION - now % EPOCH_DURATION
    ∧ getEpochNumber now * EPOCH_DURATION ≤ now
    ∧ now < (getEpochNumber now + 1) * EPOCH_DURATION
    ∧ now + getTimeRemaining now = (getEpochNumber now + 1) * EPOCH_DURATION
    ∧ (∀ k : ℕ, getEpochNumber (k * EPOCH_DURATION) = k) := by
  intro now
  unfold getEpochNumber getTimeRemaining EPOCH_DURATION
  refine ⟨rfl, rfl, by omega, by omega, by omega, fun k => by omega⟩

/-- C7 (amended): `onTick` is a no-op — state untouched, nothing broadcast —
for every price that is `NaN` or not greater than zero under the JS
comparison (this covers `-5`, `0`, `NaN` and `-Infinity`); the source guard
`!isNaN(price) && price > 0` does NOT reject `+Infinity`. -/
theorem invalid_tick_noop (p : JSNum) (now : ℕ) (s : EngineState)
    (h : p.isNaN = true ∨ jsGtNum p (.fin 0) = false) :
    onTick p now s = (s, []) := by
  have hv : ¬ validPrice p = true := by
    rcases h with h | h <;> simp [validPrice, h]
  simp [onTick, hv]

/-- Witness for `invalid_tick_noop` at price `-5`. -/
theorem invalid_tick_noop_witness :
    ((JSNum.fin (-5)).isNaN = true ∨ jsGtNum (.fin (-5)) (.fin 0) = false)
    ∧ onTick (.fin (-5)) 100 (initState 0) = (initState 0, []) :=
  ⟨Or.inr (by decide), invalid_tick_noop (.fin (-5)) 100 (initState 0) (Or.inr (by decide))⟩

/-- Counterexample to C7 as stated: the price `+Infinity` is non-finite yet
passes the guard `!isNaN(price) && price > 0`, so `onTick` mutates the
state (`currentPrice` becomes `Infinity`) and broadcasts a price event. -/
theorem infinity_tick_accepted :
    (onTick JSNum.inf 100 (initState 0)).1.currentPrice = some JSNum.inf
    ∧ (initState 0).currentPrice = none
    ∧ (onTick JSNum.inf 100 (initState 0)).2 ≠ [] := by
  refine ⟨by decide, by decide, by decide⟩

/-- C4 (amended): if an epoch boundary is crossed while no price has ever
been observed (`lastTickPriceInEpoch` and `currentPrice` both `null`),
`checkRollover` emits no `EpochResult` — but, contrary to the claim, the
epoch index does NOT advance: `processEpochEnd` returns before the
`currentEpoch = getEpochNumber()` update, leaving the whole state
unchanged until a first price arrives. -/
theorem noPriceEver_skips_settlement (s : EngineState) (now : ℕ)
    (h1 : s.lastTickPriceInEpoch = none) (h2 : s.currentPrice = none) :
    (checkRollover now s).1 = s ∧ epochEndsOf (checkRollover now s).2 = [] := by
  have hpe : processEpochEnd now s = (s, []) := by
    simp [processEpochEnd, h1, h2]
  unfold checkRollover
  by_cases hg : s.currentEpoch < getEpochNumber now <;>
    simp [hg, hpe, epochEndsOf_append, epochEndsOf_ite_time]

/-- Witness for `noPriceEver_skips_settlement` at the initial state and a
time two boundaries later. -/
theorem noPriceEver_skips_settlement_witness :
    (checkRollover 25000 (initState 0)).1 = initState 0
    ∧ epochEndsOf (checkRollover 25000 (initState 0)).2 = [] :=
  noPriceEver_skips_settlement (initState 0) 25000 (by decide) (by decide)

/-- Counterexample to C4 as stated: starting with no price ever observed,
a rollover check at `now = 25000` (epoch index 2) emits nothing AND leaves
`currentEpoch` at 0 — the epoch index does not advance past the crossed
boundary. -/
theorem noPriceEver_epoch_frozen :
    (checkRollover 25000 (initState 0)).1.currentEpoch = 0
    ∧ getEpochNumber 25000 = 2
    ∧ epochEndsOf (checkRollover 25000 (initState 0)).2 = [] := by
  refine ⟨by decide, by decide, by decide⟩

/-- C2 (confirmed): at most one settlement per epoch index — a rollover
check while `epochIndex(now)` still equals `currentEpoch` is a complete
no-op on state and emits no `epoch_end`; and across any whole execution no
two emitted `EpochResult`s share an epoch index. -/
theorem settlement_at_most_once_per_epoch :
    (∀ (now : ℕ) (s : EngineState), getEpochNumber now = s.currentEpoch →
        (checkRollover now s).1 = s ∧ epochEndsOf (checkRollover now s).2 = [])
    ∧ (∀ (t0 : ℕ) (evs : List (ℕ × Event)), timesOk t0 evs = true →
        List.Pairwise (fun a b => a.epoch ≠ b.epoch) (epochEndsOf (run t0 evs).2)) := by
  constructor
  · intro now s heq
    have hg : ¬ s.currentEpoch < getEpochNumber now := by omega
    unfold checkRollover
    simp [hg, epochEndsOf_append, epochEndsOf_ite_time]
  · intro t0 evs hok
    obtain ⟨t', hInv⟩ := run_inv hok
    exact hInv.endsPW.imp (fun hlt => ne_of_lt hlt)

/-- Witness for `settlement_at_most_once_per_epoch`: a mid-epoch check at
`now = 5000` from the initial state, and the two-settlement execution
tick–rollover. -/
theorem settlement_at_most_once_per_epoch_witness :
    ((checkRollover 5000 (initState 0)).1 = initState 0
      ∧ epochEndsOf (checkRollover 5000 (initState 0)).2 = [])
    ∧ List.Pairwise (fun a b => a.epoch ≠ b.epoch)
        (epochEndsOf (run 0 [(100, Event.tick (.fin 20)), (10050, Event.timer)]).2) :=
  ⟨settlement_at_most_once_per_epoch.1 5000 (initState 0) (by decide),
   settlement_at_most_once_per_epoch.2 0 _ (by decide)⟩

/-- C1 (amended): along any execution with nondecreasing times the observed
`currentEpoch` sequence is nondecreasing and settled epoch indices are
strictly increasing (never repeat, never decrease) — but `currentEpoch` does
NOT always advance by exactly 1 per rollover: a settling rollover sets it to
`getEpochNumber(now)`, skipping every intermediate index when more than one
boundary was crossed (and a rollover with no price ever observed leaves it
unchanged). -/
theorem epoch_monotone_fastforward :
    (∀ (t0 : ℕ) (evs : List (ℕ × Event)), timesOk t0 evs = true →
        List.Chain (· ≤ ·) (initState t0).currentEpoch
          ((runStates (initState t0) evs).map EngineState.currentEpoch))
    ∧ (∀ (now : ℕ) (s : EngineState), s.currentEpoch < getEpochNumber now →
        ¬(s.lastTickPriceInEpoch = none ∧ s.currentPrice = none) →
        (checkRollover now s).1.currentEpoch = getEpochNumber now)
    ∧ (∀ (t0 : ℕ) (evs : List (ℕ × Event)), timesOk t0 evs = true →
        List.Pairwise (fun a b => a.epoch < b.epoch) (epochEndsOf (run t0 evs).2)) := by
  refine ⟨?_, ?_, ?_⟩
  · intro t0 evs hok
    exact runStates_epoch_chain (initState_inv t0) hok
  · intro now s hg hnull
    have hpe : processEpochEnd now s =
        (settleState now s,
         [.epochEnd (settleMsg now s),
          .epochStart (getEpochNumber now) (settlePrice s) (getTimeRemaining now) now]) := by
      simp [processEpochEnd, hnull]
    unfold checkRollover
    simp [hg, hpe]
    rfl
  · intro t0 evs hok
    obtain ⟨t', hInv⟩ := run_inv hok
    exact hInv.endsPW

/-- Witness for `epoch_monotone_fastforward`: the stalled execution that
jumps from epoch 0 to epoch 2. -/
theorem epoch_monotone_fastforward_witness :
    List.Chain (· ≤ ·) (initState 0).currentEpoch
        ((runStates (initState 0) [(100, Event.tick (.fin 20)), (25000, Event.timer)]).map
          EngineState.currentEpoch)
    ∧ (checkRollover 25000 (run 0 [(100, Event.tick (.fin 20))]).1).1.currentEpoch
        = getEpochNumber 25000
    ∧ List.Pairwise (fun a b => a.epoch < b.epoch)
        (epochEndsOf (run 0 [(100, Event.tick (.fin 20)), (25000, Event.timer)]).2) :=
  ⟨epoch_monotone_fastforward.1 0 _ (by decide),
   epoch_monotone_fastforward.2.1 25000 _ (by decide) (by decide),
   epoch_monotone_fastforward.2.2 0 _ (by decide)⟩

/-- Counterexample to C1 as stated: after a stall across two epoch
boundaries a single rollover moves `currentEpoch` from 0 straight to 2 —
it does not increase by exactly 1 and the index 1 is skipped (exactly one
settlement, for epoch 0, is emitted). -/
theorem epoch_skip_counterexample :
    (run 0 [(100, Event.tick (.fin 20)), (25000, Event.timer)]).1.currentEpoch = 2
    ∧ (initState 0).currentEpoch = 0
    ∧ (epochEndsOf (run 0 [(100, Event.tick (.fin 20)), (25000, Event.timer)]).2).map
        EpochEndMsg.epoch = [0] := by
  refine ⟨by decide, by decide, by decide⟩

/-- C3 (confirmed): whenever a settlement is performed with a non-null
reference price, its outcome is `'up'` iff `endPrice` is JS-greater than the
reference and `'down'` otherwise (for finite prices this is the strict
rational order, so ties resolve to `'down'`); and since the reference is
chained from the previous settlement, every settlement after the first is
`'up'` iff its `endPrice` exceeds the previous settlement's `endPrice`. -/
theorem outcome_rule_and_chaining :
    (∀ (t0 : ℕ) (evs : List (ℕ × Event)), timesOk t0 evs = true →
      ∀ m ∈ epochEndsOf (run t0 evs).2, ∀ r, m.referencePrice = some r →
        (m.outcome = some Outcome.up ↔ jsGt m.endPrice (some r) = true)
        ∧ (m.outcome = some Outcome.down ↔ jsGt m.endPrice (some r) = false)
        ∧ (∀ a b : ℚ, m.endPrice = some (.fin a) → r = .fin b →
            (m.outcome = some Outcome.up ↔ b < a)))
    ∧ (∀ (t0 : ℕ) (evs : List (ℕ × Event)), timesOk t0 evs = true →
      ∀ (i : ℕ) (a b : EpochEndMsg),
        (epochEndsOf (run t0 evs).2)[i]? = some a →
        (epochEndsOf (run t0 evs).2)[i + 1]? = some b →
        (b.outcome = some Outcome.up ↔ jsGt b.endPrice a.endPrice = true)
        ∧ (b.outcome = some Outcome.down ↔ jsGt b.endPrice a.endPrice = false)) := by
  constructor
  · intro t0 evs hok m hm r hr
    obtain ⟨t', hInv⟩ := run_inv hok
    have ho := hInv.outcomeEq m hm
    rw [hr, if_neg (by simp)] at ho
    refine ⟨?_, ?_, ?_⟩
    · by_cases hgt : jsGt m.endPrice (some r) = true <;> simp [ho, hgt]
    · by_cases hgt : jsGt m.endPrice (some r) = true <;> simp [ho, hgt]
    · intro a b ha hb
      rw [ha, hb] at ho
      simp only [jsGt, toNum, jsGtNum] at ho
      by_cases hab : b < a
      · simp [ho, hab]
      · simp [ho, hab]
  · intro t0 evs hok i a b ha hb
    obtain ⟨t', hInv⟩ := run_inv hok
    have href : b.referencePrice = a.endPrice := chain'_adjacent hInv.refChain ha hb
    obtain ⟨v, hv, _⟩ := hInv.endsValid a (List.getElem?_mem ha)
    have ho := hInv.outcomeEq b (List.getElem?_mem hb)
    rw [href, hv, if_neg (by simp)] at ho
    rw [hv]
    constructor
    · by_cases hgt : jsGt b.endPrice (some v) = true <;> simp [ho, hgt]
    · by_cases hgt : jsGt b.endPrice (some v) = true <;> simp [ho, hgt]

/-- Witness for `outcome_rule_and_chaining` on the two-settlement execution
20 → 21: the second settlement has reference 20, end price 21, outcome up. -/
theorem outcome_rule_and_chaining_witness :
    (({ epoch := 1, endPrice := some (.fin 21), referencePrice := some (.fin 20),
        referenceIndex := 0, outcome := some .up, timestamp := 20050 } : EpochEndMsg).outcome
          = some Outcome.up
      ↔ jsGt (some (.fin 21)) (some (.fin 20)) = true)
    ∧ (({ epoch := 1, endPrice := some (.fin 21), referencePrice := some (.fin 20),
          referenceIndex := 0, outcome := some .up, timestamp := 20050 } : EpochEndMsg).outcome
            = some Outcome.down
      ↔ jsGt ({ epoch := 1, endPrice := some (.fin 21), referencePrice := some (.fin 20),
                referenceIndex := 0, outcome := some .up,
                timestamp := 20050 } : EpochEndMsg).endPrice
          ({ epoch := 0, endPrice := some (.fin 20), referencePrice := none,
             referenceIndex := -1, outcome := none,
             timestamp := 10050 } : EpochEndMsg).endPrice = false) :=
  ⟨(outcome_rule_and_chaining.1 0
      [(100, Event.tick (.fin 20)), (10050, Event.timer),
       (10100, Event.tick (.fin 21)), (20050, Event.timer)] (by decide)
      { epoch := 1, endPrice := some (.fin 21), referencePrice := some (.fin 20),
        referenceIndex := 0, outcome := some .up, timestamp := 20050 }
      (by decide) (.fin 20) rfl).1,
   (outcome_rule_and_chaining.2 0
      [(100, Event.tick (.fin 20)), (10050, Event.timer),
       (10100, Event.tick (.fin 21)), (20050, Event.timer)] (by decide) 0
      { epoch := 0, endPrice := some (.fin 20), referencePrice := none,
        referenceIndex := -1, outcome := none, timestamp := 10050 }
      { epoch := 1, endPrice := some (.fin 21), referencePrice := some (.fin 20),
        referenceIndex := 0, outcome := some .up, timestamp := 20050 }
      (by decide) (by decide)).2⟩

/-- C6 (confirmed): in every execution the first `EpochResult` ever produced
has `outcome = null` (there is no reference price yet), and every later one
has a non-null outcome, since the reference is chained from the previous
settlement's non-null `endPrice`. -/
theorem first_outcome_null_only :
    ∀ (t0 : ℕ) (evs : List (ℕ × Event)), timesOk t0 evs = true →
      (∀ m, (epochEndsOf (run t0 evs).2).head? = some m → m.outcome = none)
      ∧ (∀ (i : ℕ) (a b : EpochEndMsg),
          (epochEndsOf (run t0 evs).2)[i]? = some a →
          (epochEndsOf (run t0 evs).2)[i + 1]? = some b →
          ∃ o : Outcome, b.outcome = some o) := by
  intro t0 evs hok
  obtain ⟨t', hInv⟩ := run_inv hok
  constructor
  · intro m hm
    have hmem : m ∈ epochEndsOf (run t0 evs).2 :=
      List.mem_of_mem_head? (Option.mem_def.2 hm)
    have ho := hInv.outcomeEq m hmem
    rw [hInv.headRef m hm] at ho
    simpa using ho
  · intro i a b ha hb
    have href : b.referencePrice = a.endPrice := chain'_adjacent hInv.refChain ha hb
    obtain ⟨v, hv, _⟩ := hInv.endsValid a (List.getElem?_mem ha)
    have ho := hInv.outcomeEq b (List.getElem?_mem hb)
    rw [href, hv, if_neg (by simp)] at ho
    exact ⟨_, ho⟩

/-- Witness for `first_outcome_null_only` on the two-settlement execution:
the first emitted settlement has outcome `null` and the second does not. -/
theorem first_outcome_null_only_witness :
    (∀ m, (epochEndsOf (run 0
        [(100, Event.tick (.fin 20)), (10050, Event.timer),
         (10100, Event.tick (.fin 21)), (20050, Event.timer)]).2).head? = some m →
      m.outcome = none)
    ∧ (∃ o : Outcome,
        ({ epoch := 1, endPrice := some (.fin 21), referencePrice := some (.fin 20),
           referenceIndex := 0, outcome := some .up,
           timestamp := 20050 } : EpochEndMsg).outcome = some o) :=
  ⟨(first_outcome_null_only 0
      [(100, Event.tick (.fin 20)), (10050, Event.timer),
       (10100, Event.tick (.fin 21)), (20050, Event.timer)] (by decide)).1,
   (first_outcome_null_only 0
      [(100, Event.tick (.fin 20)), (10050, Event.timer),
       (10100, Event.tick (.fin 21)), (20050, Event.timer)] (by decide)).2 0
      { epoch := 0, endPrice := some (.fin 20), referencePrice := none,
        referenceIndex := -1, outcome := none, timestamp := 10050 }
      { epoch := 1, endPrice := some (.fin 21), referencePrice := some (.fin 20),
        referenceIndex := 0, outcome := some .up, timestamp := 20050 }
      (by decide) (by decide)⟩

/-- C5 (confirmed): a settlement's `endPrice` is `lastTickPriceInEpoch`
whenever a tick was accepted during the ended epoch (that field holds the
last accepted tick and is reset to `null` on rollover), and otherwise falls
back to the last known `currentPrice` from an earlier epoch; in either case
the outcome is computed against the prior reference by the usual rule.
The validity hypotheses say the fields hold `null` or guard-accepted prices,
as in every reachable state (`EngineInv`). -/
theorem settlement_price_selection (s : EngineState) (now : ℕ)
    (hcp : optValid s.currentPrice = true) (hlt : optValid s.lastTickPriceInEpoch = true)
    (hnull : ¬(s.lastTickPriceInEpoch = none ∧ s.currentPrice = none)) :
    epochEndsOf (processEpochEnd now s).2 = [settleMsg now s]
    ∧ (∀ v, s.lastTickPriceInEpoch = some v → (settleMsg now s).endPrice = some v)
    ∧ (s.lastTickPriceInEpoch = none → (settleMsg now s).endPrice = s.currentPrice)
    ∧ (settleMsg now s).outcome =
        (if s.lastEpochEndPrice = none then none
         else some (if jsGt (settleMsg now s).endPrice s.lastEpochEndPrice
                    then Outcome.up else Outcome.down)) := by
  obtain ⟨hsome, hnone, v, hveq, hvval⟩ := settlePrice_spec hcp hlt hnull
  refine ⟨?_, ?_, ?_, ?_⟩
  · simp [processEpochEnd, hnull, epochEndsOf]
  · intro w hw
    show settlePrice s = some w
    exact hsome w hw
  · intro hn
    show settlePrice s = s.currentPrice
    exact hnone hn
  · show settleOutcome s = _
    unfold settleOutcome
    by_cases hr : s.lastEpochEndPrice = none
    · simp [hr]
    · simp [hr, settleMsg]

/-- Witness for `settlement_price_selection`: the fallback case — no tick in
the ended epoch, `currentPrice` 20 from an earlier epoch, reference 19. -/
theorem settlement_price_selection_witness :
    epochEndsOf (processEpochEnd 20050
      { currentPrice := some (.fin 20), lastPriceTimestamp := some 9900,
        lastTickPriceInEpoch := none, currentEpoch := 1,
        epochStartPrice := some (.fin 20), lastEpochEndPrice := some (.fin 19),
        epochHistory := [], priceHistory := [] }).2
      = [settleMsg 20050
          { currentPrice := some (.fin 20), lastPriceTimestamp := some 9900,
            lastTickPriceInEpoch := none, currentEpoch := 1,
            epochStartPrice := some (.fin 20), lastEpochEndPrice := some (.fin 19),
            epochHistory := [], priceHistory := [] }]
    ∧ (settleMsg 20050
        { currentPrice := some (.fin 20), lastPriceTimestamp := some 9900,
          lastTickPriceInEpoch := none, currentEpoch := 1,
          epochStartPrice := some (.fin 20), lastEpochEndPrice := some (.fin 19),
          epochHistory := [], priceHistory := [] }).endPrice = some (.fin 20) := by
  have h := settlement_price_selection
    { currentPrice := some (.fin 20), lastPriceTimestamp := some 9900,
      lastTickPriceInEpoch := none, currentEpoch := 1,
      epochStartPrice := some (.fin 20), lastEpochEndPrice := some (.fin 19),
      epochHistory := [], priceHistory := [] } 20050
    (by decide) (by decide) (by decide)
  exact ⟨h.1, h.2.2.1 rfl⟩

/-- C8 (amended): every `epoch_end` broadcast carries the ended epoch index,
the settlement price, the previous reference price, and the outcome — but
its `referenceIndex` is NOT the index of the tick used for settlement: it is
the greatest index in the retained price history whose point belongs to an
epoch EARLIER than the ended epoch (the reference tick), or `-1` when no
such point exists. -/
theorem epochEnd_payload (s : EngineState) (now : ℕ)
    (hg : s.currentEpoch < getEpochNumber now)
    (hnull : ¬(s.lastTickPriceInEpoch = none ∧ s.currentPrice = none)) :
    epochEndsOf (checkRollover now s).2 = [settleMsg now s]
    ∧ (settleMsg now s).epoch = s.currentEpoch
    ∧ (settleMsg now s).endPrice = settlePrice s
    ∧ (settleMsg now s).referencePrice = s.lastEpochEndPrice
    ∧ (settleMsg now s).outcome = settleOutcome s
    ∧ (((settleMsg now s).referenceIndex = -1
          ∧ ∀ p ∈ markLast s.priceHistory (settleResult now s), ¬ p.epoch < s.currentEpoch)
        ∨ (∃ i : ℕ, (settleMsg now s).referenceIndex = (i : ℤ)
            ∧ ∃ hi : i < (markLast s.priceHistory (settleResult now s)).length,
                ((markLast s.priceHistory (settleResult now s)).get ⟨i, hi⟩).epoch
                    < s.currentEpoch
                ∧ ∀ j (hj : j < (markLast s.priceHistory (settleResult now s)).length),
                    i < j →
                    ¬ ((markLast s.priceHistory (settleResult now s)).get ⟨j, hj⟩).epoch
                        < s.currentEpoch)) := by
  have hpe : processEpochEnd now s =
      (settleState now s,
       [.epochEnd (settleMsg now s),
        .epochStart (getEpochNumber now) (settlePrice s) (getTimeRemaining now) now]) := by
    simp [processEpochEnd, hnull]
  refine ⟨?_, rfl, rfl, rfl, rfl, ?_⟩
  · unfold checkRollover
    simp [hg, hpe, epochEndsOf_append, epochEndsOf_ite_time, epochEndsOf]
  · exact findReferenceIndex_spec (markLast s.priceHistory (settleResult now s)) s.currentEpoch

/-- Witness for `epochEnd_payload`: a state in epoch 5 holding one epoch-4
point and one epoch-5 point, rolled over at `now = 60050`. -/
theorem epochEnd_payload_witness :
    epochEndsOf (checkRollover 60050
      { currentPrice := some (.fin 21), lastPriceTimestamp := some 50100,
        lastTickPriceInEpoch := some (.fin 21), currentEpoch := 5,
        epochStartPrice := some (.fin 21), lastEpochEndPrice := some (.fin 20),
        epochHistory := [],
        priceHistory := [{ price := .fin 20, timestamp := 49900, epoch := 4 },
                         { price := .fin 21, timestamp := 50100, epoch := 5 }] }).2
      = [settleMsg 60050
          { currentPrice := some (.fin 21), lastPriceTimestamp := some 50100,
            lastTickPriceInEpoch := some (.fin 21), currentEpoch := 5,
            epochStartPrice := some (.fin 21), lastEpochEndPrice := some (.fin 20),
            epochHistory := [],
            priceHistory := [{ price := .fin 20, timestamp := 49900, epoch := 4 },
                             { price := .fin 21, timestamp := 50100, epoch := 5 }] }] := by
  have h := epochEnd_payload
    { currentPrice := some (.fin 21), lastPriceTimestamp := some 50100,
      lastTickPriceInEpoch := some (.fin 21), currentEpoch := 5,
      epochStartPrice := some (.fin 21), lastEpochEndPrice := some (.fin 20),
      epochHistory := [],
      priceHistory := [{ price := .fin 20, timestamp := 49900, epoch := 4 },
                       { price := .fin 21, timestamp := 50100, epoch := 5 }] } 60050
    (by decide) (by decide)
  exact h.1

/-- Counterexample to C8 as stated: in the execution 20 → 21, the second
settlement (ended epoch 1) uses the tick of price 21 sitting at index 1 of
the retained history (its epoch is the ended epoch), yet the broadcast
carries `referenceIndex = 0`, which points at the epoch-0 tick of price 20 —
the reference tick, not the tick used for settlement. -/
theorem referenceIndex_not_settlement_tick :
    ((epochEndsOf (run 0 [(100, Event.tick (.fin 20)), (10050, Event.timer),
        (10100, Event.tick (.fin 21)), (20050, Event.timer)]).2).map
      EpochEndMsg.referenceIndex = [-1, 0])
    ∧ ((run 0 [(100, Event.tick (.fin 20)), (10050, Event.timer),
        (10100, Event.tick (.fin 21)), (20050, Event.timer)]).1.priceHistory.map
          (fun p => (p.price, p.epoch)) = [(.fin 20, 0), (.fin 21, 1)])
    ∧ ((epochEndsOf (run 0 [(100, Event.tick (.fin 20)), (10050, Event.timer),
        (10100, Event.tick (.fin 21)), (20050, Event.timer)]).2).map
          (fun m => (m.epoch, m.endPrice)) = [(0, some (.fin 20)), (1, some (.fin 21))]) := by
  refine ⟨by decide, by decide, by decide⟩

/-- C10 (confirmed): every `PricePoint` appended by an accepted tick is
tagged with the engine's `currentEpoch` at the moment of the call (it is the
last element of the updated history), and in every time-monotone execution
every retained point's epoch tag is at most `floor(observedAt / D)`; the
concrete execution shows a tick at `t = 10005` (wall-clock epoch 1) arriving
before the rollover check is tagged with epoch 0 and becomes epoch 0's
settlement price. -/
theorem pricePoint_epoch_attribution :
    (∀ (p : JSNum) (now : ℕ) (s : EngineState), validPrice p = true →
        ((onTick p now s).1.priceHistory.getLast?).map PricePoint.epoch
          = some s.currentEpoch)
    ∧ (∀ (t0 : ℕ) (evs : List (ℕ × Event)), timesOk t0 evs = true →
        ∀ p ∈ (run t0 evs).1.priceHistory, p.epoch ≤ getEpochNumber p.timestamp)
    ∧ ((run 0 [(100, Event.tick (.fin 20)), (10005, Event.tick (.fin 25)),
          (10050, Event.timer)]).1.priceHistory.map (fun p => (p.timestamp, p.epoch))
        = [(100, 0), (10005, 0)])
    ∧ ((epochEndsOf (run 0 [(100, Event.tick (.fin 20)), (10005, Event.tick (.fin 25)),
          (10050, Event.timer)]).2).map (fun m => (m.epoch, m.endPrice))
        = [(0, some (.fin 25))])
    ∧ getEpochNumber 10005 = 1 := by
  refine ⟨?_, ?_, by decide, by decide, by decide⟩
  · intro p now s hv
    have hlast := pushBounded_getLast (show 0 < MAX_PRICE_HISTORY by decide)
      s.priceHistory { price := p, timestamp := now, epoch := s.currentEpoch }
    simp [onTick, hv, hlast]
  · intro t0 evs hok
    obtain ⟨t', hInv⟩ := run_inv hok
    exact hInv.histLe

/-- Witness for `pricePoint_epoch_attribution`: the first accepted tick from
the initial state is tagged with epoch 0, and the one-tick run satisfies the
tag bound. -/
theorem pricePoint_epoch_attribution_witness :
    ((onTick (.fin 20) 100 (initState 0)).1.priceHistory.getLast?).map PricePoint.epoch
        = some 0
    ∧ (∀ p ∈ (run 0 [(100, Event.tick (.fin 20))]).1.priceHistory,
        p.epoch ≤ getEpochNumber p.timestamp) :=
  ⟨pricePoint_epoch_attribution.1 (.fin 20) 100 (initState 0) (by decide),
   pricePoint_epoch_attribution.2.1 0 [(100, Event.tick (.fin 20))] (by decide)⟩
